import Mathlib

/-!
Verification development for the VidHarvest Pro job-orchestration core.

The definitions below are a shallow embedding of the relevant parts of
`src/server.js` and `src/public/js/download.js`:

* floating-point quantities (the synthetic progress accumulators driven by
  `Math.random()`) are modelled as rationals; the expression
  `Math.random() * 15 + 5` is modelled by an arbitrary rational increment
  in the half-open interval `[5, 20)` (and `Math.random() * 10 + 5` by one
  in `[5, 15)`), since that is exactly the image of the expression;
* `Math.round` is modelled as `fun x => Rat.floor (x + 1/2)` (round half
  towards positive infinity, as in JavaScript for positive arguments);
* the in-memory `Map` tables (`activeDownloads`, `downloadProcesses`,
  `retryAttempts`) are modelled as association lists, and the downloads
  directory as an association list from `(platformDir, fileName)` pairs to
  file contents (a `Nat`);
* JavaScript strings are Lean `String`s; `String.prototype.includes`,
  `startsWith` and `toLowerCase` are modelled by executable functions on
  the underlying character lists (`toLowerCase` in its ASCII fragment,
  which covers every string compared against in the source).
-/

namespace VidHarvest

/-! Generic executable helpers (association lists, substring search). -/

/-- Lookup in an association list; models `Map.prototype.get`. -/
def getA {κ α : Type} [DecidableEq κ] : List (κ × α) → κ → Option α
  | [], _ => none
  | kv :: t, k => if kv.1 = k then some kv.2 else getA t k

/-- Remove a key from an association list; models `Map.prototype.delete`. -/
def delA {κ α : Type} [DecidableEq κ] (l : List (κ × α)) (k : κ) : List (κ × α) :=
  l.filter (fun kv => decide (kv.1 ≠ k))

/-- Remove an element from a plain list of keys. -/
def remS (l : List String) (x : String) : List String :=
  l.filter (fun y => decide (y ≠ x))

/-- Prefix test on character lists (kernel-reducible). -/
def isPrefixL : List Char → List Char → Bool
  | [], _ => true
  | _ :: _, [] => false
  | a :: as, b :: bs => decide (a = b) && isPrefixL as bs

/-- Substring occurrence test on character lists; models
`String.prototype.includes`. -/
def containsL (pat hay : List Char) : Bool :=
  (List.range (hay.length + 1)).any (fun i => isPrefixL pat (hay.drop i))

/-- Substring occurrence test on strings: `hay.includes(pat)`. -/
def containsS (hay pat : String) : Bool := containsL pat.data hay.data

/-- ASCII lower-casing of one character, the fragment of
`String.prototype.toLowerCase` exercised by the source. -/
def lowerChar (c : Char) : Char :=
  if 65 ≤ c.toNat ∧ c.toNat ≤ 90 then Char.ofNat (c.toNat + 32) else c

/-- ASCII lower-casing of a string. -/
def lowerStr (s : String) : String := String.mk (s.data.map lowerChar)

/-! Executable predicates used to state list properties. -/

/-- Every element of the list lies in the closed interval `[lo, hi]`. -/
def allInRange (lo hi : ℤ) : List ℤ → Bool
  | [] => true
  | v :: t => decide (lo ≤ v) && decide (v ≤ hi) && allInRange lo hi t

/-- Every element of the list is strictly below `c`. -/
def allBelow (c : ℤ) : List ℤ → Bool
  | [] => true
  | v :: t => decide (v < c) && allBelow c t

/-- The list of integers is non-decreasing. -/
def isNondec : List ℤ → Bool
  | [] => true
  | [_] => true
  | a :: b :: t => decide (a ≤ b) && isNondec (b :: t)

/-- Conjunction, over a list of rational increments, of the bound
`lo ≤ i ∧ i < hi`; used to say a list is a possible sequence of values of
a `Math.random()`-based expression. -/
def validIncs (lo hi : ℚ) : List ℚ → Prop
  | [] => True
  | i :: t => (lo ≤ i ∧ i < hi) ∧ validIncs lo hi t

/-! Synthetic fetch-stage progress, from `startDownload` in `src/server.js`:
every second the accumulator executes
`progress += Math.random() * 15 + 5; if (progress > 95) progress = 95;`
and `Math.round(progress)` is emitted. -/

/-- Models `Math.round` on a rational (JavaScript rounds half up for the
positive values that occur here). -/
def jsRound (x : ℚ) : ℤ := (x + 1/2).floor

/-- The un-clamped accumulator update `progress + (Math.random()*15+5)`,
with the random summand `inc` taken as a parameter. -/
def fetchRaw (p inc : ℚ) : ℚ := p + inc

/-- One tick of the fetch-stage progress interval:
`progress += inc; if (progress > 95) progress = 95`. -/
def fetchTick (p inc : ℚ) : ℚ :=
  if 95 < fetchRaw p inc then 95 else fetchRaw p inc

/-- Successive values of the fetch-stage accumulator for a given list of
random increments, starting from accumulator value `p`. -/
def fetchStates : List ℚ → ℚ → List ℚ
  | [], _ => []
  | i :: t, p =>
    let q := fetchTick p i
    q :: fetchStates t q

/-- The sequence of progress percentages emitted by the fetch-stage
interval (the accumulator starts at 0). -/
def fetchEmits (incs : List ℚ) : List ℤ := (fetchStates incs 0).map jsRound

/-! Synthetic enhancement-stage progress, from `applyEnhancements` in
`src/server.js`: every two seconds, if the stage has not completed and
`enhancementProgress < 95`, the code executes
`enhancementProgress += Math.random() * 10 + 5` and emits
`Math.round(90 + enhancementProgress * 0.1)`. -/

/-- Successive values of `enhancementProgress` at the ticks where the
guard `enhancementProgress < 95` let the increment happen (ticks where the
guard fails change nothing and emit nothing). -/
def enhStates : List ℚ → ℚ → List ℚ
  | [], _ => []
  | i :: t, ep =>
    if ep < 95 then
      let e2 := ep + i
      e2 :: enhStates t e2
    else enhStates t ep

/-- The progress percentage emitted for accumulator value `ep`:
`Math.round(90 + enhancementProgress * 0.1)`. -/
def enhEmit (ep : ℚ) : ℤ := jsRound (90 + ep * (1/10))

/-- The sequence of progress percentages emitted by the enhancement-stage
interval (the accumulator starts at 0). -/
def enhEmits (incs : List ℚ) : List ℤ := (enhStates incs 0).map enhEmit

/-- The full emitted progress sequence of a job whose fetch succeeds with
enhancements requested: the fetch-interval emissions, then the two
baseline-90 events (one from the `close` handler, one at the top of
`applyEnhancements`), then the enhancement-interval emissions. -/
def stageBoundaryEmits (fIncs eIncs : List ℚ) : List ℤ :=
  fetchEmits fIncs ++ 90 :: 90 :: enhEmits eIncs

/-! Concrete increment lists used as explicit inputs. -/

/-- Five ticks of the fetch interval, each with `Math.random()*15+5 = 19`
(so `Math.random() = 14/15`). -/
def fIncs1 : List ℚ := [19, 19, 19, 19, 19]

/-- Eight ticks of the enhancement interval: seven with increment 13,
then one with increment `14.5` (all inside `[5, 15)`). -/
def eIncs1 : List ℚ := [13, 13, 13, 13, 13, 13, 13, 29/2]

/-! Server-side state model (`src/server.js`). -/

/-- The three independently toggleable enhancement flags of a request. -/
structure Enh where
  aiUpscaling : Bool
  noiseReduction : Bool
  colorCorrection : Bool
deriving DecidableEq

/-- Models `Object.values(enhancements).some(Boolean)`. -/
def Enh.someFlag (e : Enh) : Bool :=
  e.aiUpscaling || e.noiseReduction || e.colorCorrection

/-- One entry of the `activeDownloads` map. `filePath` is `none` until
`startDownload` records it (it is set as a `(platformDir, fileName)`
pair); `enh` is the request's `enhancements` object, `none` when the
request carried no such object. -/
structure Download where
  filePath : Option (String × String)
  enh : Option Enh
deriving DecidableEq

/-- Externally observable side effects: socket events
(`download_progress`, `download_ready`, `download_complete`,
`download_error`) and process termination signals. -/
inductive Ev where
  | progress (id : String) (pct : ℤ) (status : String)
  | ready (id : String)
  | complete (id : String)
  | error (id : String)
  | kill (id : String)
deriving DecidableEq

/-- Server state: the `activeDownloads` map, the `downloadProcesses` map
(only its key set matters), the downloads directory (path to content),
and the list of emitted events. -/
structure Srv where
  active : List (String × Download)
  procs : List String
  fsFiles : List ((String × String) × Nat)
  events : List Ev
deriving DecidableEq

/-- Models `fs.existsSync` on a `(platformDir, fileName)` path. -/
def fileExists (s : Srv) (p : String × String) : Bool :=
  (getA s.fsFiles p).isSome

/-- Which branch of the `yt-dlp` `close` handler ran. -/
inductive CloseBranch where
  | toEnhance
  | toComplete
  | toFail
deriving DecidableEq

/-- The `ytdlp.on('close', (code) => ...)` handler of `startDownload`
(src/server.js lines 364-390). `fp` is the closure variable `filePath`,
`enh` the closure variable `enhancements`.  The handler first deletes the
process-table entry; then, if the exit code is 0 and the artifact file
exists, it proceeds to enhancement (when some enhancement flag is truthy)
or to completion; otherwise it emits `download_error` and removes the job
from both tables. -/
def onYtdlpClose (s : Srv) (id : String) (fp : String × String)
    (enh : Option Enh) (code : ℤ) : Srv × CloseBranch :=
  let s0 := { s with procs := remS s.procs id }
  if code = 0 ∧ fileExists s0 fp = true then
    match enh with
    | some e =>
      if e.someFlag then
        ({ s0 with events := s0.events ++ [Ev.progress id 90 ("enhancing")] },
         CloseBranch.toEnhance)
      else
        ({ s0 with events :=
            s0.events ++ [Ev.progress id 100 ("complete"), Ev.ready id] },
         CloseBranch.toComplete)
    | none =>
        ({ s0 with events :=
            s0.events ++ [Ev.progress id 100 ("complete"), Ev.ready id] },
         CloseBranch.toComplete)
  else
    ({ s0 with
        events := s0.events ++ [Ev.error id],
        active := delA s0.active id,
        procs := remS s0.procs id },
     CloseBranch.toFail)

/-- The names of the files in a platform directory; models
`fs.readdirSync(outputDir)`. -/
def dirFiles (s : Srv) (dir : String) : List String :=
  (s.fsFiles.filter (fun kv => decide (kv.1.1 = dir))).map (fun kv => kv.1.2)

/-- Models the predicate
`f.includes('mp4') || f.includes('mp3') || f.includes('mkv')` used by
`completeDownload` to locate the final file. -/
def mediaNamed (f : String) : Bool :=
  containsS f ("mp4") || containsS f ("mp3") || containsS f ("mkv")

/-- The `completeDownload` function (src/server.js lines 526-570).  When
no filename is passed it searches the directory for a media-named file;
if none is found, `path.join(outputDir, undefined)` throws and the
enclosing `catch` emits `download_error` and deletes the job entry. When
the resolved file exists it emits `download_ready` then
`download_complete`; when it does not, it emits `download_error` and
returns without touching the tables. -/
def completeDownload (s : Srv) (id dir : String) (filename : Option String) : Srv :=
  if (getA s.active id).isSome then
    match (match filename with
           | some f => some f
           | none => (dirFiles s dir).find? mediaNamed) with
    | some f =>
      if (getA s.fsFiles (dir, f)).isSome then
        { s with events := s.events ++ [Ev.ready id, Ev.complete id] }
      else
        { s with events := s.events ++ [Ev.error id] }
    | none =>
        { s with events := s.events ++ [Ev.error id], active := delA s.active id }
  else s

/-- The `.on('error', ...)` handler of the enhancement command in
`applyEnhancements` (src/server.js lines 501-517), reached on a non-zero
transcode exit, on the 5-minute-timeout kill, and on any other transcode
error: it deletes the partial `enhanced_` output if present, then calls
`completeDownload` with the original `videoFile`. -/
def onEnhanceError (s : Srv) (id dir videoFile : String) : Srv :=
  let outName := ("enhanced_") ++ videoFile
  let fs1 :=
    if (getA s.fsFiles (dir, outName)).isSome then delA s.fsFiles (dir, outName)
    else s.fsFiles
  completeDownload { s with fsFiles := fs1 } id dir (some videoFile)

/-- The `catch` branch of `applyEnhancements` (exception before the
transcode process was set up): it calls `completeDownload` without a
filename. -/
def onEnhanceSetupFail (s : Srv) (id dir : String) : Srv :=
  completeDownload s id dir none

/-- The `DELETE /api/cleanup/:downloadId` handler (src/server.js lines
652-687). Step 1 deletes the recorded artifact when the entry, its
`filePath` and the file all exist.  Step 2 computes
`path.dirname(download.filePath)` — which throws a `TypeError` when the
entry exists but `filePath` was never recorded, making the handler answer
500 — and sweeps the directory for files whose name contains the job id.
Finally the entry is removed and the handler answers success.  The
returned Bool is `true` for a 200 response and `false` for a 500. -/
def cleanup (s : Srv) (id : String) : Srv × Bool :=
  match getA s.active id with
  | none => ({ s with active := delA s.active id }, true)
  | some d =>
    match d.filePath with
    | none => (s, false)
    | some p =>
      let fs1 := if (getA s.fsFiles p).isSome then delA s.fsFiles p else s.fsFiles
      let fs2 := fs1.filter (fun kv =>
        !(decide (kv.1.1 = p.1) && containsS kv.1.2 id))
      ({ s with fsFiles := fs2, active := delA s.active id }, true)

/-- The `POST /api/download/:downloadId/cancel` handler (src/server.js
lines 621-649): signal and drop the process if one is registered, delete
the recorded partial artifact if it exists, drop the job entry, and
answer success.  Every branch answers success. -/
def apiCancel (s : Srv) (id : String) : Srv × Bool :=
  let s1 :=
    if id ∈ s.procs then
      { s with procs := remS s.procs id, events := s.events ++ [Ev.kill id] }
    else s
  let s2 :=
    match getA s1.active id with
    | some d =>
      let fs1 :=
        match d.filePath with
        | some p => if (getA s1.fsFiles p).isSome then delA s1.fsFiles p else s1.fsFiles
        | none => s1.fsFiles
      { s1 with fsFiles := fs1, active := delA s1.active id }
    | none => s1
  (s2, true)

/-- The `POST /api/download` handler together with the synchronous start
of `startDownload` up to the `yt-dlp` spawn (src/server.js lines 258-288
and 314-358): a fresh id is allocated and answered unconditionally — the
handler performs no URL validation — the `activeDownloads` entry is
created (and `startDownload` records the artifact path on it), the
initial progress event is emitted, and the external process is spawned
and registered.  `url` is accepted as-is; `audioOnly` stands for
`quality === 'Audio Only'` and `plat` for `detectPlatform(url)`. -/
def apiDownload (s : Srv) (freshId url plat : String) (audioOnly : Bool)
    (enh : Option Enh) : Srv × Option String :=
  let ext := if audioOnly then ("mp3") else ("mp4")
  let fp : String × String := (plat, freshId ++ (".") ++ ext)
  let s1 := { s with
    active := (freshId, { filePath := some fp, enh := enh }) :: delA s.active freshId,
    events := s.events ++ [Ev.progress freshId 0 ("downloading")],
    procs := s.procs ++ [freshId] }
  (s1, some freshId)

/-- The URL validation of the `POST /api/analyze` handler (src/server.js
lines 174-191): the request is rejected with a 400 validation error when
the URL is missing/empty or does not start with `http`; `true` means the
validation passed. -/
def analyzeAccepts (url : String) : Bool :=
  !(decide (url = "")) && isPrefixL ("http").data url.data

/-! Client-side queue and retry model (`src/public/js/download.js`,
class DownloadManager).  The `async` bodies run synchronously up to their
first true suspension point; in particular `startDownload` inserts the
job into `this.downloads` before awaiting the network, so queue admission
is atomic with respect to further submissions. -/

/-- One entry of `this.downloadQueue`. -/
structure QItem where
  id : Nat
  priority : ℤ
  addedAt : ℤ
deriving DecidableEq

/-- The sort comparator of `sortQueue`: `a` may stay before `b` exactly
when `b.priority - a.priority < 0`, or the priorities are equal and
`a.addedAt - b.addedAt ≤ 0`. -/
def qLe (a b : QItem) : Bool :=
  decide (b.priority < a.priority) ||
    (decide (a.priority = b.priority) && decide (a.addedAt ≤ b.addedAt))

/-- Stable insertion of an element into an already sorted list: the new
element goes after every element it does not strictly precede. -/
def insertQ (x : QItem) : List QItem → List QItem
  | [] => [x]
  | y :: ys => if qLe y x then y :: insertQ x ys else x :: y :: ys

/-- The `sortQueue` method: a stable sort of the queue by `qLe`
(`Array.prototype.sort` is stable per ECMA-262). -/
def sortQueue (l : List QItem) : List QItem :=
  l.foldl (fun acc x => insertQ x acc) []

/-- Membership of a queue item in the exact tie class of the comparator
(same priority and same `addedAt`). -/
def tieC (pr t : ℤ) (x : QItem) : Bool :=
  decide (x.priority = pr) && decide (x.addedAt = t)

/-- Client manager state: the pending queue, the key set of
`this.downloads` (active downloads), the `retryAttempts` map, the ids for
which `startDownload` has been invoked (in invocation order), and the ids
for which a final error message was shown. -/
structure Mgr where
  queue : List QItem
  downloads : List Nat
  retryAttempts : List (Nat × Nat)
  started : List Nat
  errorsShown : List Nat
  maxConc : Nat
deriving DecidableEq

/-- The admission loop of `processQueue`: while the queue is non-empty
and `downloads.size < maxConcurrentDownloads`, shift the head and start
it (`startDownload` registers the job in `this.downloads` at once).
Returns the remaining queue and the updated download/started lists. -/
def runQueue (mx : Nat) (dl st : List Nat) :
    List QItem → List QItem × List Nat × List Nat
  | [] => ([], dl, st)
  | h :: t =>
    if dl.length < mx then runQueue mx (dl ++ [h.id]) (st ++ [h.id]) t
    else (h :: t, dl, st)

/-- The `processQueue` method. -/
def processQueue (m : Mgr) : Mgr :=
  let r := runQueue m.maxConc m.downloads m.started m.queue
  { m with queue := r.1, downloads := r.2.1, started := r.2.2 }

/-- The `addToQueue` method: push the item, sort the queue, and process
it immediately. -/
def addToQueue (m : Mgr) (x : QItem) : Mgr :=
  processQueue { m with queue := sortQueue (m.queue ++ [x]) }

/-- The `handleDownloadComplete` method restricted to its scheduling
effect: if the job is active, drop it from `this.downloads` and process
the queue again. -/
def handleComplete (m : Mgr) (id : Nat) : Mgr :=
  if id ∈ m.downloads then
    processQueue { m with
      downloads := m.downloads.filter (fun y => decide (y ≠ id)) }
  else m

/-- The `cancelDownload` method (src/public/js/download.js lines
459-487): it looks the id up in `this.downloads` and returns at once when
it is absent; otherwise it drops the id from the downloads and retry
tables, notifies the server, and processes the queue. -/
def cancelDownload (m : Mgr) (id : Nat) : Mgr :=
  if id ∈ m.downloads then
    processQueue { m with
      downloads := m.downloads.filter (fun y => decide (y ≠ id)),
      retryAttempts := delA m.retryAttempts id }
  else m

/-- The retryable-error substrings of `isRetryableError`. -/
def retryableErrors : List String :=
  [("network error"), ("timeout"), ("connection reset"),
   ("temporary failure"), ("rate limited")]

/-- The `isRetryableError` method:
`retryableErrors.some(r => error.toLowerCase().includes(r))`. -/
def isRetryableError (e : String) : Bool :=
  retryableErrors.any (fun r => containsS (lowerStr e) r)

/-- The `maxRetries` configuration of `setupRetryLogic`. -/
def maxRetries : Nat := 3

/-- The `retryDelay` configuration of `setupRetryLogic`, in ms. -/
def retryDelay : Nat := 5000

/-- Outcome of `handleDownloadError`: a retry scheduled as attempt
`attempt` after `delayMs` milliseconds, a final failure, or an ignored
call (unknown id). -/
inductive RetryDecision where
  | scheduled (attempt delayMs : Nat)
  | failed
  | ignored
deriving DecidableEq

/-- The `handleDownloadError` method together with the bookkeeping of
`scheduleRetry` (src/public/js/download.js lines 323-384): for an active
job, if fewer than `maxRetries` retries have been recorded and the error
message is retryable, record attempt `rc + 1` and schedule it after
`retryDelay * 2 ^ (attempt - 1)` ms; otherwise surface the error, drop
the job from the downloads and retry tables, and process the queue. -/
def handleError (m : Mgr) (id : Nat) (e : String) : Mgr × RetryDecision :=
  if id ∈ m.downloads then
    let rc := (getA m.retryAttempts id).getD 0
    if rc < maxRetries ∧ isRetryableError e = true then
      ({ m with retryAttempts := (id, rc + 1) :: delA m.retryAttempts id },
       RetryDecision.scheduled (rc + 1) (retryDelay * 2 ^ rc))
    else
      (processQueue { m with
          downloads := m.downloads.filter (fun y => decide (y ≠ id)),
          retryAttempts := delA m.retryAttempts id,
          errorsShown := m.errorsShown ++ [id] },
       RetryDecision.failed)
  else (m, RetryDecision.ignored)

/-! Concrete fixtures used by counterexamples and witnesses. -/

/-- Job A of the priority scenario: priority 0, submitted first. -/
def jobA : QItem := { id := 1, priority := 0, addedAt := 0 }

/-- Job B of the priority scenario: priority 1, submitted second. -/
def jobB : QItem := { id := 2, priority := 1, addedAt := 1 }

/-- A job used for the queued-cancellation scenario. -/
def jobJ : QItem := { id := 5, priority := 0, addedAt := 0 }

/-- An idle manager with a single worker slot. -/
def mgrIdle : Mgr :=
  { queue := [], downloads := [], retryAttempts := [], started := [],
    errorsShown := [], maxConc := 1 }

/-- A manager whose single worker slot is occupied by job 9. -/
def mgrBusy : Mgr :=
  { queue := [], downloads := [9], retryAttempts := [], started := [],
    errorsShown := [], maxConc := 1 }

/-- A manager with job 1 active, an empty queue, and no recorded
retries. -/
def mgrOne : Mgr :=
  { queue := [], downloads := [1], retryAttempts := [], started := [],
    errorsShown := [], maxConc := 3 }

/-- A server state with one fetched artifact on disk. -/
def srvReady : Srv :=
  { active := [(("j"), { filePath := some (("YouTube"), ("j.mp4")), enh := none })],
    procs := [],
    fsFiles := [((("YouTube"), ("j.mp4")), 42)],
    events := [] }

/-- The empty server state. -/
def srvEmpty : Srv :=
  { active := [], procs := [], fsFiles := [], events := [] }

/-! Association-list and helper lemmas. -/

theorem getA_delA {κ α : Type} [DecidableEq κ] (l : List (κ × α)) (k : κ) :
    getA (delA l k) k = none := by
  induction l with
  | nil => rfl
  | cons kv t ih =>
    by_cases h : kv.1 = k
    · simpa [delA, getA, List.filter_cons, h] using ih
    · simpa [delA, getA, List.filter_cons, h] using ih

theorem getA_delA_ne {κ α : Type} [DecidableEq κ] (l : List (κ × α)) (k k' : κ)
    (h : k' ≠ k) : getA (delA l k) k' = getA l k' := by
  induction l with
  | nil => rfl
  | cons kv t ih =>
    have hkne : ¬ (k = k') := fun hh => h hh.symm
    by_cases hk : kv.1 = k
    · have hkk' : ¬ (kv.1 = k') := by
        rw [hk]; exact hkne
      simpa [delA, getA, List.filter_cons, hk, hkk', hkne] using ih
    · by_cases hk' : kv.1 = k'
      · simp [delA, getA, List.filter_cons, hk, hk', h, hkne]
      · simpa [delA, getA, List.filter_cons, hk, hk', h, hkne] using ih

theorem not_mem_remS (l : List String) (x : String) : x ∉ remS l x := by
  intro h
  have := (List.mem_filter.mp h).2
  simp at this

theorem completeDownload_fsFiles (s : Srv) (id dir : String)
    (fn : Option String) : (completeDownload s id dir fn).fsFiles = s.fsFiles := by
  unfold completeDownload
  split
  · split
    · split <;> rfl
    · rfl
  · rfl

theorem enhanced_ne (f : String) : ("enhanced_") ++ f ≠ f := by
  intro h
  have hl := congrArg String.length h
  rw [String.length_append] at hl
  have h9 : ("enhanced_").length = 9 := rfl
  omega

theorem getA_isSome_of_mem {κ α : Type} [DecidableEq κ] (l : List (κ × α)) (k : κ)
    (h : ∃ kv ∈ l, kv.1 = k) : (getA l k).isSome = true := by
  induction l with
  | nil =>
    rcases h with ⟨kv, hkv, _⟩
    simp at hkv
  | cons kv' t ih =>
    by_cases hk : kv'.1 = k
    · simp [getA, hk]
    · rcases h with ⟨kv, hkv, hkeq⟩
      rcases List.mem_cons.mp hkv with rfl | hmem
      · exact absurd hkeq hk
      · simp only [getA, if_neg hk]
        exact ih ⟨kv, hmem, hkeq⟩

theorem mem_of_getA_some {κ α : Type} [DecidableEq κ] (l : List (κ × α)) (k : κ)
    (c : α) (h : getA l k = some c) : ∃ kv ∈ l, kv.1 = k := by
  induction l with
  | nil => simp [getA] at h
  | cons kv' t ih =>
    by_cases hk : kv'.1 = k
    · exact ⟨kv', List.mem_cons_self kv' t, hk⟩
    · simp only [getA, if_neg hk] at h
      rcases ih h with ⟨kv, hmem, hkeq⟩
      exact ⟨kv, List.mem_cons_of_mem kv' hmem, hkeq⟩

theorem mem_dirFiles_of_getA (s : Srv) (dir f : String) (c : Nat)
    (h : getA s.fsFiles ((dir, f)) = some c) : f ∈ dirFiles s dir := by
  rcases mem_of_getA_some _ _ _ h with ⟨kv, hmem, hkeq⟩
  unfold dirFiles
  refine List.mem_map.mpr ⟨kv, ?_, ?_⟩
  · refine List.mem_filter.mpr ⟨hmem, ?_⟩
    simp [hkeq]
  · rw [hkeq]

theorem getA_isSome_of_mem_dirFiles (s : Srv) (dir g : String)
    (h : g ∈ dirFiles s dir) : (getA s.fsFiles ((dir, g))).isSome = true := by
  unfold dirFiles at h
  rcases List.mem_map.mp h with ⟨kv, hkv, rfl⟩
  have h2 := List.mem_filter.mp hkv
  have hd : kv.1.1 = dir := by simpa using h2.2
  refine getA_isSome_of_mem _ _ ⟨kv, h2.1, ?_⟩
  rw [← hd]

theorem find?_isSome_of_mem (p : String → Bool) (l : List String) (a : String)
    (ha : a ∈ l) (hp : p a = true) :
    ∃ g, l.find? p = some g ∧ g ∈ l ∧ p g = true := by
  induction l with
  | nil => simp at ha
  | cons b t ih =>
    by_cases hb : p b = true
    · exact ⟨b, by simp [List.find?_cons, hb], List.mem_cons_self b t, hb⟩
    · rcases List.mem_cons.mp ha with rfl | hat
      · exact absurd hp hb
      · rcases ih hat with ⟨g, hfind, hgmem, hgp⟩
        refine ⟨g, ?_, List.mem_cons_of_mem b hgmem, hgp⟩
        simp only [List.find?_cons]
        simp [hb, hfind]

/-! C1 — exit code decides the fetch outcome. -/

/-- C1: in the `yt-dlp` `close` handler, the job proceeds (to enhancement
or completion) exactly when the process exited with code 0 and the
artifact file exists on disk; in every other case an error event is
emitted and the job is removed from the `activeDownloads` and
`downloadProcesses` tables. -/
theorem fetch_exit_code_decides_outcome
    (s : Srv) (id : String) (fp : String × String) (enh : Option Enh) (code : ℤ) :
    ((onYtdlpClose s id fp enh code).2 ≠ CloseBranch.toFail
        ↔ (code = 0 ∧ fileExists s fp = true))
    ∧ ((onYtdlpClose s id fp enh code).2 = CloseBranch.toFail →
        Ev.error id ∈ (onYtdlpClose s id fp enh code).1.events
        ∧ getA (onYtdlpClose s id fp enh code).1.active id = none
        ∧ id ∉ (onYtdlpClose s id fp enh code).1.procs) := by
  by_cases h : code = 0 ∧ (getA s.fsFiles fp).isSome = true
  · cases enh with
    | none => simp [onYtdlpClose, fileExists, h, h.1, h.2]
    | some e =>
      by_cases hf : e.someFlag = true
      · simp [onYtdlpClose, fileExists, h, h.1, h.2, hf]
      · simp only [Bool.not_eq_true] at hf
        simp [onYtdlpClose, fileExists, h, h.1, h.2, hf]
  · simp [onYtdlpClose, fileExists, h, getA_delA, not_mem_remS]

/-- Witness for C1 at a concrete failing input: exit code 1 on the empty
state takes the failure branch and its conclusions hold. -/
theorem fetch_exit_code_decides_outcome_w :
    ((onYtdlpClose srvEmpty ("j") (("YouTube"), ("j.mp4")) none 1).2
        ≠ CloseBranch.toFail
      ↔ ((1 : ℤ) = 0 ∧ fileExists srvEmpty (("YouTube"), ("j.mp4")) = true))
    ∧ ((onYtdlpClose srvEmpty ("j") (("YouTube"), ("j.mp4")) none 1).2
        = CloseBranch.toFail →
        Ev.error ("j")
            ∈ (onYtdlpClose srvEmpty ("j") (("YouTube"), ("j.mp4")) none 1).1.events
        ∧ getA (onYtdlpClose srvEmpty ("j") (("YouTube"), ("j.mp4")) none 1).1.active
            ("j") = none
        ∧ ("j") ∉ (onYtdlpClose srvEmpty ("j") (("YouTube"), ("j.mp4")) none 1).1.procs) :=
  fetch_exit_code_decides_outcome srvEmpty ("j") (("YouTube"), ("j.mp4")) none 1

/-! C9 — cancellation is total at the public interface. -/

/-- C9: for every job id — including ids with no running process and ids
never submitted — the cancel endpoint reports success, and afterwards
neither the process table nor the active-jobs table contains the id. -/
theorem cancel_total_success (s : Srv) (id : String) :
    (apiCancel s id).2 = true
    ∧ id ∉ (apiCancel s id).1.procs
    ∧ getA (apiCancel s id).1.active id = none := by
  by_cases hp : id ∈ s.procs
  · cases hd : getA s.active id with
    | none => simp [apiCancel, hp, hd, not_mem_remS]
    | some d => simp [apiCancel, hp, hd, getA_delA, not_mem_remS]
  · cases hd : getA s.active id with
    | none => simp [apiCancel, hp, hd]
    | some d => simp [apiCancel, hp, hd, getA_delA]

/-! C6 — cleanup idempotence. -/

/-- C6: cleanup by job id is idempotent — the first call succeeds, the
second call also reports success, and the second call deletes nothing
(the file table is unchanged by it), so the artifact is deleted at most
once.  The hypothesis is the state invariant of the running server: every
`activeDownloads` entry has its `filePath` recorded, because
`startDownload` assigns it synchronously in the same event-loop turn that
created the entry, before any other request can be processed. -/
theorem cleanup_idempotent_with_path (s : Srv) (id : String)
    (h : Option.all (fun d => d.filePath.isSome) (getA s.active id) = true) :
    (cleanup s id).2 = true
    ∧ (cleanup (cleanup s id).1 id).2 = true
    ∧ (cleanup (cleanup s id).1 id).1.fsFiles = (cleanup s id).1.fsFiles := by
  cases hd : getA s.active id with
  | none =>
    have h2 : getA (delA s.active id) id = none := getA_delA _ _
    simp [cleanup, hd, h2]
  | some d =>
    rw [hd] at h
    cases hfp : d.filePath with
    | none => simp [Option.all, hfp] at h
    | some p =>
      have h2 : getA (delA s.active id) id = none := getA_delA _ _
      simp [cleanup, hd, hfp, h2]

/-- Witness for C6 (amended) at a concrete state with a recorded file
path. -/
theorem cleanup_idempotent_with_path_w :
    (cleanup srvReady ("j")).2 = true
    ∧ (cleanup (cleanup srvReady ("j")).1 ("j")).2 = true
    ∧ (cleanup (cleanup srvReady ("j")).1 ("j")).1.fsFiles
        = (cleanup srvReady ("j")).1.fsFiles :=
  cleanup_idempotent_with_path srvReady ("j") (by decide)

/-! C8 — URL validation happens only on the analyze endpoint. -/

/-- Counterexample to C8 as stated: a submission whose URL has no
transfer scheme is not rejected — `POST /api/download` allocates and
returns a job id, creates the `activeDownloads` entry, and spawns and
registers the external process (the same URL would be rejected by the
analyze endpoint's validation). -/
theorem download_skips_url_validation_cex :
    analyzeAccepts ("no-scheme-at-all") = false
    ∧ (apiDownload srvEmpty ("j1") ("no-scheme-at-all") ("Unknown") false none).2
        = some ("j1")
    ∧ (getA (apiDownload srvEmpty ("j1") ("no-scheme-at-all") ("Unknown") false
        none).1.active ("j1")).isSome = true
    ∧ ("j1") ∈ (apiDownload srvEmpty ("j1") ("no-scheme-at-all") ("Unknown") false
        none).1.procs := by decide

/-- C8 (amended): only the analyze endpoint validates the URL scheme — a
URL that does not start with `http` fails its validation — while the
download submission endpoint performs no URL validation at all: for every
URL it answers success with the fresh job id, creates the job entry, and
starts and registers the external process. -/
theorem validation_only_on_analyze (s : Srv) (id url plat : String)
    (ao : Bool) (enh : Option Enh) :
    (isPrefixL ("http").data url.data = false → analyzeAccepts url = false)
    ∧ (apiDownload s id url plat ao enh).2 = some id
    ∧ (getA (apiDownload s id url plat ao enh).1.active id).isSome = true
    ∧ id ∈ (apiDownload s id url plat ao enh).1.procs := by
  refine ⟨?_, rfl, ?_, ?_⟩
  · intro h
    simp [analyzeAccepts, h]
  · simp [apiDownload, getA]
  · simp [apiDownload]

/-- Witness for C8 (amended) at a concrete schemeless URL. -/
theorem validation_only_on_analyze_w :
    (isPrefixL ("http").data ("ftp.example").data = false
      → analyzeAccepts ("ftp.example") = false)
    ∧ (apiDownload srvEmpty ("j2") ("ftp.example") ("Unknown") true none).2
        = some ("j2")
    ∧ (getA (apiDownload srvEmpty ("j2") ("ftp.example") ("Unknown") true
        none).1.active ("j2")).isSome = true
    ∧ ("j2") ∈ (apiDownload srvEmpty ("j2") ("ftp.example") ("Unknown") true
        none).1.procs :=
  validation_only_on_analyze srvEmpty ("j2") ("ftp.example") ("Unknown") true none

/-! C3 — enhancement failure is non-fatal. -/

/-- C3: when the enhancement stage fails (non-zero transcode exit, the
5-minute-timeout kill, or an exception before the transcode was set up),
the temporary `enhanced_` output is absent afterwards (deleted if it was
present), the original artifact's content is unchanged, and the job still
completes: `download_ready` is emitted from the original artifact.  The
pre-spawn exception path never touches the file table, and it too emits
`download_ready` whenever the original artifact carries a media name —
which every fetch-produced artifact does, being named
`<id>.mp4`/`<id>.mp3`. -/
theorem enhancement_failure_nonfatal (s : Srv) (id dir f : String) (c : Nat)
    (hin : getA s.fsFiles ((dir, f)) = some c)
    (hact : (getA s.active id).isSome = true) :
    getA (onEnhanceError s id dir f).fsFiles ((dir, f)) = some c
    ∧ getA (onEnhanceError s id dir f).fsFiles ((dir, ("enhanced_") ++ f)) = none
    ∧ Ev.ready id ∈ (onEnhanceError s id dir f).events
    ∧ (onEnhanceSetupFail s id dir).fsFiles = s.fsFiles
    ∧ (mediaNamed f = true →
        Ev.ready id ∈ (onEnhanceSetupFail s id dir).events) := by
  have hne' : ((dir, f) : String × String) ≠ (dir, ("enhanced_") ++ f) := by
    intro hh
    exact enhanced_ne f (congrArg Prod.snd hh).symm
  have hfs1in :
      getA (if (getA s.fsFiles ((dir, ("enhanced_") ++ f))).isSome
          then delA s.fsFiles ((dir, ("enhanced_") ++ f)) else s.fsFiles)
        ((dir, f)) = some c := by
    split
    · rw [getA_delA_ne _ _ _ hne']
      exact hin
    · exact hin
  have hfs1out :
      getA (if (getA s.fsFiles ((dir, ("enhanced_") ++ f))).isSome
          then delA s.fsFiles ((dir, ("enhanced_") ++ f)) else s.fsFiles)
        ((dir, ("enhanced_") ++ f)) = none := by
    by_cases ho : (getA s.fsFiles ((dir, ("enhanced_") ++ f))).isSome = true
    · rw [if_pos ho]
      exact getA_delA _ _
    · rw [if_neg ho]
      exact Option.not_isSome_iff_eq_none.mp ho
  refine ⟨?_, ?_, ?_, completeDownload_fsFiles _ _ _ _, ?_⟩
  · simp only [onEnhanceError, completeDownload_fsFiles]
    exact hfs1in
  · simp only [onEnhanceError, completeDownload_fsFiles]
    exact hfs1out
  · simp [onEnhanceError, completeDownload, hact, hfs1in]
  · intro hmp
    have hfmem : f ∈ dirFiles s dir := mem_dirFiles_of_getA s dir f c hin
    rcases find?_isSome_of_mem mediaNamed (dirFiles s dir) f hfmem hmp with
      ⟨g, hfind, hgmem, _⟩
    have hgsome : (getA s.fsFiles ((dir, g))).isSome = true :=
      getA_isSome_of_mem_dirFiles s dir g hgmem
    simp [onEnhanceSetupFail, completeDownload, hact, hfind, hgsome]

/-! Sort-comparator lemmas for the client queue. -/

theorem qLe_total (a b : QItem) : qLe a b = true ∨ qLe b a = true := by
  simp only [qLe, Bool.or_eq_true, Bool.and_eq_true, decide_eq_true_eq]
  omega

theorem qLe_trans (a b c : QItem) (h1 : qLe a b = true) (h2 : qLe b c = true) :
    qLe a c = true := by
  simp only [qLe, Bool.or_eq_true, Bool.and_eq_true, decide_eq_true_eq] at h1 h2 ⊢
  omega

theorem tieC_qLe (pr t : ℤ) (x y : QItem) (hx : tieC pr t x = true)
    (hy : tieC pr t y = true) : qLe x y = true := by
  simp only [tieC, qLe, Bool.or_eq_true, Bool.and_eq_true, decide_eq_true_eq] at hx hy ⊢
  omega

theorem mem_insertQ (x a : QItem) (l : List QItem) :
    a ∈ insertQ x l ↔ a = x ∨ a ∈ l := by
  induction l with
  | nil => simp [insertQ]
  | cons y ys ih =>
    by_cases hq : qLe y x = true
    · simp only [insertQ, if_pos hq, List.mem_cons, ih]
      tauto
    · simp only [insertQ, if_neg hq, List.mem_cons]

theorem pairwise_insertQ (x : QItem) (l : List QItem)
    (hl : l.Pairwise (fun a b => qLe a b = true)) :
    (insertQ x l).Pairwise (fun a b => qLe a b = true) := by
  induction l with
  | nil => simp [insertQ]
  | cons y ys ih =>
    rcases List.pairwise_cons.mp hl with ⟨hy, hys⟩
    by_cases hq : qLe y x = true
    · simp only [insertQ, if_pos hq]
      refine List.pairwise_cons.mpr ⟨?_, ih hys⟩
      intro b hb
      rcases (mem_insertQ x b ys).mp hb with rfl | hbys
      · exact hq
      · exact hy b hbys
    · simp only [insertQ, if_neg hq]
      have hxy : qLe x y = true := (qLe_total x y).resolve_right hq
      refine List.pairwise_cons.mpr ⟨?_, hl⟩
      intro b hb
      rcases List.mem_cons.mp hb with rfl | hbys
      · exact hxy
      · exact qLe_trans x y b hxy (hy b hbys)

theorem sortQueue_pairwise (l : List QItem) :
    (sortQueue l).Pairwise (fun a b => qLe a b = true) := by
  suffices hgen : ∀ (t acc : List QItem),
      acc.Pairwise (fun a b => qLe a b = true) →
      (t.foldl (fun a x => insertQ x a) acc).Pairwise (fun a b => qLe a b = true) by
    exact hgen l [] (by simp)
  intro t
  induction t with
  | nil => intro acc hacc; simpa using hacc
  | cons x t ih =>
    intro acc hacc
    exact ih (insertQ x acc) (pairwise_insertQ x acc hacc)

theorem insertQ_perm (x : QItem) (l : List QItem) :
    List.Perm (insertQ x l) (x :: l) := by
  induction l with
  | nil => exact List.Perm.refl _
  | cons y ys ih =>
    by_cases hq : qLe y x = true
    · simp only [insertQ, if_pos hq]
      exact List.Perm.trans (List.Perm.cons y ih) (List.Perm.swap x y ys)
    · simp only [insertQ, if_neg hq]
      exact List.Perm.refl _

theorem sortQueue_perm (l : List QItem) : List.Perm (sortQueue l) l := by
  suffices hgen : ∀ (t acc : List QItem),
      List.Perm (t.foldl (fun a x => insertQ x a) acc) (acc ++ t) by
    simpa using hgen l []
  intro t
  induction t with
  | nil => intro acc; simp
  | cons x t ih =>
    intro acc
    have h1 := ih (insertQ x acc)
    have h2 : List.Perm (insertQ x acc ++ t) ((x :: acc) ++ t) :=
      (insertQ_perm x acc).append_right t
    have h3 : List.Perm ((x :: acc) ++ t) (acc ++ x :: t) := by
      simpa using (@List.perm_middle _ x acc t).symm
    exact List.Perm.trans h1 (List.Perm.trans h2 h3)

theorem filter_insertQ_neg (p : QItem → Bool) (x : QItem) (l : List QItem)
    (hx : p x = false) :
    (insertQ x l).filter p = l.filter p := by
  induction l with
  | nil => simp [insertQ, hx]
  | cons y ys ih =>
    by_cases hq : qLe y x = true
    · simp only [insertQ, if_pos hq, List.filter_cons, ih]
    · simp only [insertQ, if_neg hq, List.filter_cons, hx]
      simp

theorem filter_insertQ_tie (pr t : ℤ) (x : QItem) (l : List QItem)
    (hl : l.Pairwise (fun a b => qLe a b = true))
    (hx : tieC pr t x = true) :
    (insertQ x l).filter (tieC pr t) = l.filter (tieC pr t) ++ [x] := by
  induction l with
  | nil => simp [insertQ, hx]
  | cons y ys ih =>
    rcases List.pairwise_cons.mp hl with ⟨hy, hys⟩
    by_cases hq : qLe y x = true
    · simp only [insertQ, if_pos hq, List.filter_cons, ih hys]
      by_cases hpy : tieC pr t y = true
      · simp [hpy]
      · simp [hpy]
    · simp only [insertQ, if_neg hq]
      have hnone : ∀ z ∈ y :: ys, tieC pr t z = false := by
        intro z hz
        cases hzz : tieC pr t z with
        | false => rfl
        | true =>
          exfalso
          have hzx : qLe z x = true := tieC_qLe pr t z x hzz hx
          rcases List.mem_cons.mp hz with rfl | hzys
          · exact hq hzx
          · exact hq (qLe_trans y z x (hy z hzys) hzx)
      have hemp : (y :: ys).filter (tieC pr t) = [] := by
        rw [List.filter_eq_nil_iff]
        intro a ha
        simp [hnone a ha]
      rw [List.filter_cons, hemp]
      simp [hx]

theorem sortQueue_filter_tie (pr t : ℤ) (l : List QItem) :
    (sortQueue l).filter (tieC pr t) = l.filter (tieC pr t) := by
  suffices hgen : ∀ (tl acc : List QItem),
      acc.Pairwise (fun a b => qLe a b = true) →
      (tl.foldl (fun a x => insertQ x a) acc).filter (tieC pr t)
        = acc.filter (tieC pr t) ++ tl.filter (tieC pr t) by
    simpa using hgen l [] (by simp)
  intro tl
  induction tl with
  | nil => intro acc hacc; simp
  | cons x tl ih =>
    intro acc hacc
    have h1 := ih (insertQ x acc) (pairwise_insertQ x acc hacc)
    by_cases hx : tieC pr t x = true
    · rw [List.foldl_cons, h1, filter_insertQ_tie pr t x acc hacc hx,
        List.filter_cons]
      simp [hx]
    · rw [List.foldl_cons, h1,
        filter_insertQ_neg _ x acc (by simpa using hx), List.filter_cons]
      simp [hx]

/-- Witness for C3 at a concrete state holding the fetched artifact. -/
theorem enhancement_failure_nonfatal_w :
    getA (onEnhanceError srvReady ("j") ("YouTube") ("j.mp4")).fsFiles
        ((("YouTube"), ("j.mp4"))) = some 42
    ∧ getA (onEnhanceError srvReady ("j") ("YouTube") ("j.mp4")).fsFiles
        ((("YouTube"), ("enhanced_") ++ ("j.mp4"))) = none
    ∧ Ev.ready ("j") ∈ (onEnhanceError srvReady ("j") ("YouTube") ("j.mp4")).events
    ∧ (onEnhanceSetupFail srvReady ("j") ("YouTube")).fsFiles = srvReady.fsFiles
    ∧ (mediaNamed ("j.mp4") = true →
        Ev.ready ("j") ∈ (onEnhanceSetupFail srvReady ("j") ("YouTube")).events) :=
  enhancement_failure_nonfatal srvReady ("j") ("YouTube") ("j.mp4") 42
    (by decide) (by decide)

/-! Rounding and progress-sequence lemmas. -/

theorem ratFloor_ge (r : ℚ) (c : ℤ) (h : (c : ℚ) ≤ r) : c ≤ r.floor :=
  Rat.le_floor.mpr h

theorem ratFloor_le (r : ℚ) (c : ℤ) (h : r < (c : ℚ) + 1) : r.floor ≤ c := by
  by_contra hcon
  push_neg at hcon
  have h1 : (c + 1 : ℤ) ≤ r.floor := by omega
  have h2 : ((c + 1 : ℤ) : ℚ) ≤ r := Rat.le_floor.mp h1
  push_cast at h2
  linarith

theorem ratFloor_mono (a b : ℚ) (h : a ≤ b) : a.floor ≤ b.floor := by
  apply Rat.le_floor.mpr
  exact le_trans (Rat.le_floor.mp (le_refl a.floor)) h

theorem jsRound_mono (x y : ℚ) (h : x ≤ y) : jsRound x ≤ jsRound y :=
  ratFloor_mono _ _ (by linarith)

theorem jsRound_ge (x : ℚ) (c : ℤ) (h : (c : ℚ) ≤ x + 1/2) : c ≤ jsRound x :=
  ratFloor_ge _ _ h

theorem jsRound_le (x : ℚ) (c : ℤ) (h : x + 1/2 < (c : ℚ) + 1) : jsRound x ≤ c :=
  ratFloor_le _ _ h

theorem jsRound_eqc (x : ℚ) (c : ℤ) (h1 : (c : ℚ) ≤ x + 1/2)
    (h2 : x + 1/2 < (c : ℚ) + 1) : jsRound x = c :=
  le_antisymm (jsRound_le x c h2) (jsRound_ge x c h1)

theorem fetchTick_ge (p i : ℚ) (hi : 0 ≤ i) (hp : p ≤ 95) : p ≤ fetchTick p i := by
  by_cases hcon : 95 < fetchRaw p i
  · simp only [fetchTick, if_pos hcon]
    exact hp
  · simp only [fetchTick, if_neg hcon]
    simp only [fetchRaw]
    linarith

theorem fetchTick_le95 (p i : ℚ) : fetchTick p i ≤ 95 := by
  by_cases hcon : 95 < fetchRaw p i
  · simp [fetchTick, if_pos hcon]
  · simp only [fetchTick, if_neg hcon]
    exact not_lt.mp hcon

theorem allInRange_iff (lo hi : ℤ) (l : List ℤ) :
    allInRange lo hi l = true ↔ ∀ v ∈ l, lo ≤ v ∧ v ≤ hi := by
  induction l with
  | nil => simp [allInRange]
  | cons v t ih =>
    simp only [allInRange, Bool.and_eq_true, decide_eq_true_eq, ih,
      List.forall_mem_cons]

theorem fetch_invariant (incs : List ℚ) (p : ℚ)
    (hincs : ∀ i ∈ incs, (5 : ℚ) ≤ i) (hp : p ≤ 95) :
    isNondec ((p :: fetchStates incs p).map jsRound) = true
    ∧ ∀ q ∈ fetchStates incs p, p ≤ q ∧ q ≤ 95 := by
  induction incs generalizing p with
  | nil => simp [fetchStates, isNondec]
  | cons i t ih =>
    have hi5 : (5 : ℚ) ≤ i := hincs i (List.mem_cons_self i t)
    have ht : ∀ j ∈ t, (5 : ℚ) ≤ j := fun j hj => hincs j (List.mem_cons_of_mem i hj)
    have h1 : p ≤ fetchTick p i := fetchTick_ge p i (by linarith) hp
    have h2 : fetchTick p i ≤ 95 := fetchTick_le95 p i
    rcases ih (fetchTick p i) ht h2 with ⟨ha, hb⟩
    constructor
    · simp only [fetchStates, List.map_cons] at ha ⊢
      simp only [isNondec, Bool.and_eq_true]
      refine ⟨decide_eq_true (jsRound_mono _ _ h1), ?_⟩
      simpa using ha
    · intro q hq
      simp only [fetchStates, List.mem_cons] at hq
      rcases hq with rfl | hq2
      · exact ⟨h1, h2⟩
      · rcases hb q hq2 with ⟨hb1, hb2⟩
        exact ⟨le_trans h1 hb1, hb2⟩

theorem enhEmit_mono (a b : ℚ) (h : a ≤ b) : enhEmit a ≤ enhEmit b := by
  unfold enhEmit
  exact jsRound_mono _ _ (by linarith)

theorem enh_invariant (incs : List ℚ) (ep : ℚ)
    (hincs : ∀ i ∈ incs, (5 : ℚ) ≤ i ∧ i < 15) (hep : 0 ≤ ep) :
    isNondec (enhEmit ep :: (enhStates incs ep).map enhEmit) = true
    ∧ ∀ q ∈ enhStates incs ep, (5 : ℚ) ≤ q ∧ q < 110 := by
  induction incs generalizing ep with
  | nil => simp [enhStates, isNondec]
  | cons i t ih =>
    rcases hincs i (List.mem_cons_self i t) with ⟨hi5, hi15⟩
    have ht : ∀ j ∈ t, (5 : ℚ) ≤ j ∧ j < 15 :=
      fun j hj => hincs j (List.mem_cons_of_mem i hj)
    by_cases hg : ep < 95
    · have hep' : (0 : ℚ) ≤ ep + i := by linarith
      rcases ih (ep + i) ht hep' with ⟨ha, hb⟩
      constructor
      · simp only [enhStates, if_pos hg, List.map_cons]
        simp only [isNondec, Bool.and_eq_true]
        refine ⟨decide_eq_true (enhEmit_mono _ _ (by linarith)), ?_⟩
        simpa using ha
      · intro q hq
        simp only [enhStates, if_pos hg, List.mem_cons] at hq
        rcases hq with rfl | hq2
        · exact ⟨by linarith, by linarith⟩
        · exact hb q hq2
    · rcases ih ep ht hep with ⟨ha, hb⟩
      constructor
      · simpa [enhStates, if_neg hg] using ha
      · intro q hq
        exact hb q (by simpa [enhStates, if_neg hg] using hq)

/-! C5 — fetch-stage synthetic progress. -/

/-- Counterexample to C5 as stated: with the admissible increments of
`fIncs1` (each of the form `Math.random()*15+5` with `Math.random() =
14/15`), the fetch-stage interval emits the value 95 — the sequence does
reach 95 rather than staying strictly below it. -/
theorem fetch_progress_reaches_95_cex :
    validIncs 5 20 fIncs1
    ∧ allBelow 95 (fetchEmits fIncs1) = false := by
  constructor
  · norm_num [validIncs, fIncs1]
  · have hs : fetchStates fIncs1 0 = [19, 38, 57, 76, 95] := by
      norm_num [fIncs1, fetchStates, fetchTick, fetchRaw]
    have e1 : jsRound 19 = 19 := jsRound_eqc _ _ (by norm_num) (by norm_num)
    have e2 : jsRound 38 = 38 := jsRound_eqc _ _ (by norm_num) (by norm_num)
    have e3 : jsRound 57 = 57 := jsRound_eqc _ _ (by norm_num) (by norm_num)
    have e4 : jsRound 76 = 76 := jsRound_eqc _ _ (by norm_num) (by norm_num)
    have e5 : jsRound 95 = 95 := jsRound_eqc _ _ (by norm_num) (by norm_num)
    unfold fetchEmits
    rw [hs]
    simp only [List.map_cons, List.map_nil, e1, e2, e3, e4, e5]
    decide

/-- C5 (amended): for every admissible sequence of random increments
(each in `[5, 20)`, the image of `Math.random()*15+5`), the emitted
fetch-stage progress sequence is non-decreasing from the initial 0 and
every emitted value lies in `[0, 95]` — the accumulator is clamped at 95,
which is attained, not approached — and every tick adds a strictly
positive amount to the accumulator before clamping. -/
theorem fetch_progress_bounded_monotone (incs : List ℚ)
    (h : ∀ i ∈ incs, (5 : ℚ) ≤ i ∧ i < 20) :
    isNondec (jsRound 0 :: fetchEmits incs) = true
    ∧ allInRange 0 95 (fetchEmits incs) = true
    ∧ ∀ i ∈ incs, ∀ p : ℚ, p < fetchRaw p i := by
  have h5 : ∀ i ∈ incs, (5 : ℚ) ≤ i := fun i hi => (h i hi).1
  rcases fetch_invariant incs 0 h5 (by norm_num) with ⟨ha, hb⟩
  refine ⟨?_, ?_, ?_⟩
  · simpa [fetchEmits] using ha
  · rw [allInRange_iff]
    intro v hv
    rcases List.mem_map.mp (by simpa [fetchEmits] using hv) with ⟨q, hq, rfl⟩
    rcases hb q hq with ⟨hq0, hq95⟩
    constructor
    · exact jsRound_ge _ _ (by push_cast; linarith)
    · exact jsRound_le _ _ (by push_cast; linarith)
  · intro i hi p
    have h5i := (h i hi).1
    simp only [fetchRaw]
    linarith

/-- Witness for C5 (amended) at the empty increment list. -/
theorem fetch_progress_bounded_monotone_w :
    isNondec (jsRound 0 :: fetchEmits []) = true
    ∧ allInRange 0 95 (fetchEmits []) = true
    ∧ ∀ i ∈ ([] : List ℚ), ∀ p : ℚ, p < fetchRaw p i :=
  fetch_progress_bounded_monotone [] (by simp)

/-! C4 — enhancement-stage synthetic progress. -/

/-- Counterexample to C4 as stated: with the admissible increments of
`eIncs1` the enhancement stage emits the value 101, outside the claimed
`[90, 100]` band; and with `fIncs1` the fetch stage ends at 95, so the
combined sequence across the fetch-to-enhance boundary drops from 95 to
the baseline 90 and is not monotone. -/
theorem enhance_progress_overshoot_cex :
    validIncs 5 15 eIncs1
    ∧ validIncs 5 20 fIncs1
    ∧ allInRange 90 100 (enhEmits eIncs1) = false
    ∧ isNondec (stageBoundaryEmits fIncs1 eIncs1) = false := by
  have hse : enhStates eIncs1 0 = [13, 26, 39, 52, 65, 78, 91, 211/2] := by
    norm_num [eIncs1, enhStates]
  have f1 : enhEmit 13 = 91 := by
    unfold enhEmit
    exact jsRound_eqc _ _ (by norm_num) (by norm_num)
  have f2 : enhEmit 26 = 93 := by
    unfold enhEmit
    exact jsRound_eqc _ _ (by norm_num) (by norm_num)
  have f3 : enhEmit 39 = 94 := by
    unfold enhEmit
    exact jsRound_eqc _ _ (by norm_num) (by norm_num)
  have f4 : enhEmit 52 = 95 := by
    unfold enhEmit
    exact jsRound_eqc _ _ (by norm_num) (by norm_num)
  have f5 : enhEmit 65 = 97 := by
    unfold enhEmit
    exact jsRound_eqc _ _ (by norm_num) (by norm_num)
  have f6 : enhEmit 78 = 98 := by
    unfold enhEmit
    exact jsRound_eqc _ _ (by norm_num) (by norm_num)
  have f7 : enhEmit 91 = 99 := by
    unfold enhEmit
    exact jsRound_eqc _ _ (by norm_num) (by norm_num)
  have f8 : enhEmit (211/2) = 101 := by
    unfold enhEmit
    exact jsRound_eqc _ _ (by norm_num) (by norm_num)
  have hemits : enhEmits eIncs1 = [91, 93, 94, 95, 97, 98, 99, 101] := by
    unfold enhEmits
    rw [hse]
    simp only [List.map_cons, List.map_nil, f1, f2, f3, f4, f5, f6, f7, f8]
  have hsf : fetchStates fIncs1 0 = [19, 38, 57, 76, 95] := by
    norm_num [fIncs1, fetchStates, fetchTick, fetchRaw]
  have e1 : jsRound 19 = 19 := jsRound_eqc _ _ (by norm_num) (by norm_num)
  have e2 : jsRound 38 = 38 := jsRound_eqc _ _ (by norm_num) (by norm_num)
  have e3 : jsRound 57 = 57 := jsRound_eqc _ _ (by norm_num) (by norm_num)
  have e4 : jsRound 76 = 76 := jsRound_eqc _ _ (by norm_num) (by norm_num)
  have e5 : jsRound 95 = 95 := jsRound_eqc _ _ (by norm_num) (by norm_num)
  have hfe : fetchEmits fIncs1 = [19, 38, 57, 76, 95] := by
    unfold fetchEmits
    rw [hsf]
    simp only [List.map_cons, List.map_nil, e1, e2, e3, e4, e5]
  refine ⟨by norm_num [validIncs, eIncs1], by norm_num [validIncs, fIncs1], ?_, ?_⟩
  · rw [hemits]
    decide
  · unfold stageBoundaryEmits
    rw [hfe, hemits]
    decide

/-- C4 (amended): the enhancement stage starts at the baseline 90, every
emitted value is an integer in `[90, 101]` (the synthetic mapping can
overshoot 100 by one), and the emitted sequence is non-decreasing within
the stage; monotonicity across the fetch-to-enhance boundary does not
hold in general, since the fetch stage can emit up to 95 before the
enhancement stage resets to 90 (see the counterexample). -/
theorem enhance_progress_band (incs : List ℚ)
    (h : ∀ i ∈ incs, (5 : ℚ) ≤ i ∧ i < 15) :
    isNondec ((90 : ℤ) :: enhEmits incs) = true
    ∧ allInRange 90 101 (enhEmits incs) = true := by
  have h0 : enhEmit 0 = 90 := by
    unfold enhEmit
    exact jsRound_eqc _ _ (by norm_num) (by norm_num)
  rcases enh_invariant incs 0 h (le_refl 0) with ⟨ha, hb⟩
  constructor
  · rw [h0] at ha
    simpa [enhEmits] using ha
  · rw [allInRange_iff]
    intro v hv
    rcases List.mem_map.mp (by simpa [enhEmits] using hv) with ⟨q, hq, rfl⟩
    rcases hb q hq with ⟨hq5, hq110⟩
    unfold enhEmit
    constructor
    · exact jsRound_ge _ _ (by push_cast; linarith)
    · exact jsRound_le _ _ (by push_cast; linarith)

/-- Witness for C4 (amended) at the empty increment list. -/
theorem enhance_progress_band_w :
    isNondec ((90 : ℤ) :: enhEmits []) = true
    ∧ allInRange 90 101 (enhEmits []) = true :=
  enhance_progress_band [] (by simp)

/-! C2 — queue ordering and the priority admission scenario. -/

/-- Counterexample to C2 as stated: with `maxConcurrent = 1` and an idle
manager, submitting job A (priority 0) and then job B (priority 1) admits
A to fetching immediately at its submission — `started = [1]` — while B
is still queued; B is not admitted to fetching before A. -/
theorem eager_admission_beats_priority_cex :
    (addToQueue (addToQueue mgrIdle jobA) jobB).started = [1]
    ∧ (addToQueue (addToQueue mgrIdle jobA) jobB).queue = [jobB]
    ∧ jobA.priority = 0 ∧ jobB.priority = 1 ∧ jobA.addedAt < jobB.addedAt := by
  decide

/-- C2 (amended): `sortQueue` orders the queue by priority descending,
then by enqueue time ascending (`Pairwise qLe` on a permutation of the
input), with exact comparator ties kept in insertion order (the filter on
any tie class is unchanged); but admission is eager — a submission is
admitted immediately when a slot is free — so B (priority 1, submitted
after A with `maxConcurrent = 1`) is admitted to fetching before A only
when no slot was free at A's submission: when both jobs are queued behind
an occupied slot, freeing the slot admits B first and leaves A queued. -/
theorem queue_order_priority_then_time (l : List QItem) (pr t : ℤ) :
    (sortQueue l).Pairwise (fun a b => qLe a b = true)
    ∧ List.Perm (sortQueue l) l
    ∧ (sortQueue l).filter (tieC pr t) = l.filter (tieC pr t)
    ∧ (handleComplete (addToQueue (addToQueue mgrBusy jobA) jobB) 9).started = [2]
    ∧ (handleComplete (addToQueue (addToQueue mgrBusy jobA) jobB) 9).queue = [jobA] := by
  refine ⟨sortQueue_pairwise l, sortQueue_perm l, sortQueue_filter_tie pr t l, ?_, ?_⟩
  · decide
  · decide

/-! C7 — cancelling a queued job. -/

/-- Counterexample to C7 as stated: with the single slot occupied by job
9, job 5 is queued; `cancelDownload 5` finds no entry in `this.downloads`
and returns without touching any state — the job is not removed from the
queue — and when job 9 completes, `startDownload` (the external fetch) is
invoked for job 5 after all. -/
theorem cancel_queued_noop_cex :
    cancelDownload (addToQueue mgrBusy jobJ) 5 = addToQueue mgrBusy jobJ
    ∧ (addToQueue mgrBusy jobJ).queue = [jobJ]
    ∧ (handleComplete (cancelDownload (addToQueue mgrBusy jobJ) 5) 9).started
        = [5] := by
  decide

/-- C7 (amended): `cancelDownload` affects only jobs already admitted to
a worker slot: when the id is not in the active-downloads table (in
particular when the job is still queued) the call is a no-op — the queue
is unchanged — and the external fetcher is still invoked for the job once
capacity frees, as the concrete scenario shows. -/
theorem cancel_only_active (m : Mgr) (id : Nat) (h : id ∉ m.downloads) :
    cancelDownload m id = m
    ∧ (handleComplete (cancelDownload (addToQueue mgrBusy jobJ) 5) 9).started
        = [5] := by
  constructor
  · simp [cancelDownload, h]
  · decide

/-- Witness for C7 (amended): job 5 is queued, not active, in
`addToQueue mgrBusy jobJ`. -/
theorem cancel_only_active_w :
    cancelDownload (addToQueue mgrBusy jobJ) 5 = addToQueue mgrBusy jobJ
    ∧ (handleComplete (cancelDownload (addToQueue mgrBusy jobJ) 5) 9).started
        = [5] :=
  cancel_only_active (addToQueue mgrBusy jobJ) 5 (by decide)

/-! C10 — the retry policy. -/

theorem runQueue_not_mem (mx : Nat) (dl st : List Nat) (q : List QItem) (id : Nat)
    (hdl : id ∉ dl) (hq : ∀ x ∈ q, x.id ≠ id) :
    id ∉ (runQueue mx dl st q).2.1 := by
  induction q generalizing dl st with
  | nil => simpa [runQueue] using hdl
  | cons a tq ih =>
    by_cases hc : dl.length < mx
    · simp only [runQueue, if_pos hc]
      refine ih (dl ++ [a.id]) (st ++ [a.id]) ?_ ?_
      · intro hmem
        rcases List.mem_append.mp hmem with hmem | hmem
        · exact hdl hmem
        · simp only [List.mem_singleton] at hmem
          exact hq a (List.mem_cons_self a tq) hmem.symm
      · intro x hx
        exact hq x (List.mem_cons_of_mem a hx)
    · simp only [runQueue, if_neg hc]
      exact hdl

/-- C10: for an active job with `rc` recorded retries, a failure leads to
an automatic retry exactly when `rc < 3` and the error message contains
one of the five retryable substrings; the scheduled attempt is `rc + 1`
(so at most 3 attempts ever) with delay `5000 * 2 ^ ((rc + 1) - 1)` ms;
every other error, and exhaustion of the 3 attempts, removes the job from
the active downloads and the retry table and surfaces the error. -/
theorem retry_policy (m : Mgr) (id : Nat) (e : String)
    (h : id ∈ m.downloads) (hq : ∀ x ∈ m.queue, x.id ≠ id) :
    ((handleError m id e).2
        = RetryDecision.scheduled ((getA m.retryAttempts id).getD 0 + 1)
            (5000 * 2 ^ (((getA m.retryAttempts id).getD 0 + 1) - 1))
      ↔ ((getA m.retryAttempts id).getD 0 < 3 ∧ isRetryableError e = true))
    ∧ (((getA m.retryAttempts id).getD 0 < 3 ∧ isRetryableError e = true) →
        getA (handleError m id e).1.retryAttempts id
          = some ((getA m.retryAttempts id).getD 0 + 1)
        ∧ (getA m.retryAttempts id).getD 0 + 1 ≤ 3
        ∧ id ∈ (handleError m id e).1.downloads)
    ∧ (¬ ((getA m.retryAttempts id).getD 0 < 3 ∧ isRetryableError e = true) →
        (handleError m id e).2 = RetryDecision.failed
        ∧ id ∉ (handleError m id e).1.downloads
        ∧ getA (handleError m id e).1.retryAttempts id = none
        ∧ id ∈ (handleError m id e).1.errorsShown) := by
  by_cases hc : (getA m.retryAttempts id).getD 0 < 3 ∧ isRetryableError e = true
  · have h2 : (getA m.retryAttempts id).getD 0 < maxRetries ∧ isRetryableError e = true := hc
    refine ⟨?_, ?_, ?_⟩
    · simp only [handleError, if_pos h, if_pos h2]
      simp [hc, retryDelay]
    · intro _
      simp only [handleError, if_pos h, if_pos h2]
      refine ⟨by simp [getA], by omega, h⟩
    · intro hcon
      exact absurd hc hcon
  · have h2 : ¬ ((getA m.retryAttempts id).getD 0 < maxRetries ∧ isRetryableError e = true) := hc
    refine ⟨?_, ?_, ?_⟩
    · simp only [handleError, if_pos h, if_neg h2]
      simp [hc]
    · intro hcon
      exact absurd hcon hc
    · intro _
      simp only [handleError, if_pos h, if_neg h2]
      refine ⟨trivial, ?_, ?_, ?_⟩
      · simp only [processQueue]
        refine runQueue_not_mem _ _ _ _ _ ?_ hq
        intro hmem
        have := (List.mem_filter.mp hmem).2
        simp at this
      · simp only [processQueue]
        exact getA_delA _ _
      · simp only [processQueue]
        simp

/-- Witness for C10 at a retryable concrete error on an active job. -/
theorem retry_policy_w :
    ((handleError mgrOne 1 ("Network error: connection reset")).2
        = RetryDecision.scheduled ((getA mgrOne.retryAttempts 1).getD 0 + 1)
            (5000 * 2 ^ (((getA mgrOne.retryAttempts 1).getD 0 + 1) - 1))
      ↔ ((getA mgrOne.retryAttempts 1).getD 0 < 3
          ∧ isRetryableError ("Network error: connection reset") = true))
    ∧ (((getA mgrOne.retryAttempts 1).getD 0 < 3
          ∧ isRetryableError ("Network error: connection reset") = true) →
        getA (handleError mgrOne 1 ("Network error: connection reset")).1.retryAttempts 1
          = some ((getA mgrOne.retryAttempts 1).getD 0 + 1)
        ∧ (getA mgrOne.retryAttempts 1).getD 0 + 1 ≤ 3
        ∧ 1 ∈ (handleError mgrOne 1 ("Network error: connection reset")).1.downloads)
    ∧ (¬ ((getA mgrOne.retryAttempts 1).getD 0 < 3
          ∧ isRetryableError ("Network error: connection reset") = true) →
        (handleError mgrOne 1 ("Network error: connection reset")).2
          = RetryDecision.failed
        ∧ 1 ∉ (handleError mgrOne 1 ("Network error: connection reset")).1.downloads
        ∧ getA (handleError mgrOne 1
            ("Network error: connection reset")).1.retryAttempts 1 = none
        ∧ 1 ∈ (handleError mgrOne 1 ("Network error: connection reset")).1.errorsShown) :=
  retry_policy mgrOne 1 ("Network error: connection reset") (by decide) (by simp [mgrOne])

end VidHarvest
